import Mathlib

/-!
Shallow embedding of the quaternion library in `src/src/lib.rs`
(crate `rust-quaternion`).

The Rust code is a single concrete type `Quaternion` with four `f64`
fields `i, j, k, l` (`i` is the real part, `j k l` the imaginary parts).
We model `f64` by the real numbers `ℝ`, so every arithmetic operation of
the source is an exact field operation.  `x.powf(2.0)` on a real operand
is modelled as `x ^ 2` and `s.powf(0.5)` (applied in the source only to
the nonnegative sum of four squares) as `Real.sqrt s`.
-/

open scoped Classical

namespace RustQuat

/-- The `Quaternion` struct of the source: fields `i j k l : f64`. -/
structure Quaternion where
  i : ℝ
  j : ℝ
  k : ℝ
  l : ℝ

/-- `Quaternion::new(alpha, beta, charlie, delta)`. -/
def Quaternion.new (alpha beta charlie delta : ℝ) : Quaternion :=
  ⟨alpha, beta, charlie, delta⟩

/-- `Quaternion::conj`: keeps `i`, negates `j`, `k`, `l`. -/
def Quaternion.conj (q : Quaternion) : Quaternion :=
  ⟨q.i, -q.j, -q.k, -q.l⟩

/-- `Quaternion::grassman_product(delta, echo)`: the Hamilton product,
component by component exactly as written in the source. -/
def Quaternion.grassman_product (delta echo : Quaternion) : Quaternion :=
  ⟨delta.i * echo.i - delta.j * echo.j - delta.k * echo.k - delta.l * echo.l,
   delta.i * echo.j + delta.j * echo.i + delta.k * echo.l - delta.l * echo.k,
   delta.i * echo.k - delta.j * echo.l + delta.k * echo.i + delta.l * echo.j,
   delta.i * echo.l + delta.j * echo.k - delta.k * echo.j + delta.l * echo.i⟩

/-- The `impl Add for Quaternion`: componentwise addition. -/
def Quaternion.add (a alpha : Quaternion) : Quaternion :=
  ⟨a.i + alpha.i, a.j + alpha.j, a.k + alpha.k, a.l + alpha.l⟩

instance : Add Quaternion := ⟨Quaternion.add⟩

/-- The `impl Sub for Quaternion`: componentwise subtraction. -/
def Quaternion.sub (a alpha : Quaternion) : Quaternion :=
  ⟨a.i - alpha.i, a.j - alpha.j, a.k - alpha.k, a.l - alpha.l⟩

instance : Sub Quaternion := ⟨Quaternion.sub⟩

/-- The `impl Mul for Quaternion`: the Hamilton product again, copied
from the `mul` method (an independent code path from
`grassman_product`). -/
def Quaternion.mul (a alpha : Quaternion) : Quaternion :=
  ⟨a.i * alpha.i - a.j * alpha.j - a.k * alpha.k - a.l * alpha.l,
   a.i * alpha.j + a.j * alpha.i + a.k * alpha.l - a.l * alpha.k,
   a.i * alpha.k - a.j * alpha.l + a.k * alpha.i + a.l * alpha.j,
   a.i * alpha.l + a.j * alpha.k - a.k * alpha.j + a.l * alpha.i⟩

instance : Mul Quaternion := ⟨Quaternion.mul⟩

/-- `Quaternion::cross_product(delta, echo)`: builds `b = (0.5,0,0,0)`,
the commutator `q = grassman_product(delta,echo) - grassman_product(echo,delta)`,
and returns `grassman_product(b, q)`. -/
def Quaternion.cross_product (delta echo : Quaternion) : Quaternion :=
  let b := Quaternion.new 0.5 0.0 0.0 0.0
  let q := Quaternion.grassman_product delta echo -
    Quaternion.grassman_product echo delta
  Quaternion.grassman_product b q

/-- `Quaternion::real`: the `i` component. -/
def Quaternion.real (q : Quaternion) : ℝ := q.i

/-- `Quaternion::imag`: the list `[j, k, l]`. -/
def Quaternion.imag (q : Quaternion) : List ℝ := [q.j, q.k, q.l]

/-- `Quaternion::abs`: `(i² + j² + k² + l²).powf(0.5)`; the argument is a
sum of squares, hence nonnegative, so `powf(0.5)` is the square root. -/
noncomputable def Quaternion.abs (q : Quaternion) : ℝ :=
  Real.sqrt (q.i ^ 2 + q.j ^ 2 + q.k ^ 2 + q.l ^ 2)

/-- `Quaternion::exchangeable(self, alpha)`: computes the cross product
and returns `true` exactly when all four of its components are `0.0`. -/
noncomputable def Quaternion.exchangeable (self alpha : Quaternion) : Bool :=
  let q := Quaternion.cross_product self alpha
  if q.i = 0 ∧ q.j = 0 ∧ q.k = 0 ∧ q.l = 0 then true else false

/-- `Quaternion::divide_elementwise(self, alpha)`: takes `a = alpha.abs()`
(the absolute value of the scalar) and divides every component by `a`. -/
noncomputable def Quaternion.divide_elementwise (q : Quaternion) (alpha : ℝ) :
    Quaternion :=
  let a := |alpha|
  ⟨q.i / a, q.j / a, q.k / a, q.l / a⟩

/-- `Quaternion::unit`: `divide_elementwise(self, self.abs())`. -/
noncomputable def Quaternion.unit (q : Quaternion) : Quaternion :=
  Quaternion.divide_elementwise q q.abs

/-- Modelled from the spec: the scalar-multiply overload of `*` is not in
`src/src/lib.rs` (it belongs to another variant of this repository); the
spec states it scales every component by a single scalar value:
`a * scalar = (a.r*s, a.x*s, a.y*s, a.z*s)`. -/
def Quaternion.mulScalar (q : Quaternion) (s : ℝ) : Quaternion :=
  ⟨q.i * s, q.j * s, q.k * s, q.l * s⟩

/- Unfolding lemmas tying the operator instances back to the named
methods. -/

theorem Quaternion.add_def (a b : Quaternion) : a + b = Quaternion.add a b := rfl

theorem Quaternion.sub_def (a b : Quaternion) : a - b = Quaternion.sub a b := rfl

theorem Quaternion.mul_def (a b : Quaternion) : a * b = Quaternion.mul a b := rfl

/-- Helper: two quaternions are equal exactly when all four components
agree. -/
theorem Quaternion.eq_iff (p q : Quaternion) :
    p = q ↔ p.i = q.i ∧ p.j = q.j ∧ p.k = q.k ∧ p.l = q.l := by
  constructor
  · intro h
    rw [h]
    exact ⟨rfl, rfl, rfl, rfl⟩
  · intro h
    obtain ⟨h1, h2, h3, h4⟩ := h
    cases p
    cases q
    simp only at h1 h2 h3 h4
    rw [h1, h2, h3, h4]

/-- Helper: `exchangeable` returns `true` exactly when the cross product
is the zero quaternion. -/
theorem Quaternion.exchangeable_iff (a b : Quaternion) :
    Quaternion.exchangeable a b = true ↔
      Quaternion.cross_product a b = Quaternion.new 0 0 0 0 := by
  unfold Quaternion.exchangeable
  rw [Quaternion.eq_iff]
  by_cases h : (Quaternion.cross_product a b).i = 0 ∧
      (Quaternion.cross_product a b).j = 0 ∧
      (Quaternion.cross_product a b).k = 0 ∧
      (Quaternion.cross_product a b).l = 0
  · rw [if_pos h]
    simpa [Quaternion.new] using h
  · rw [if_neg h]
    simpa [Quaternion.new] using h

/-- Helper: swapping the operands of `cross_product` negates every
component of the result. -/
theorem Quaternion.cross_product_swap (a b : Quaternion) :
    Quaternion.cross_product b a =
      Quaternion.new (-(Quaternion.cross_product a b).i)
        (-(Quaternion.cross_product a b).j)
        (-(Quaternion.cross_product a b).k)
        (-(Quaternion.cross_product a b).l) := by
  rw [Quaternion.eq_iff]
  refine ⟨?_, ?_, ?_, ?_⟩ <;>
    simp only [Quaternion.cross_product, Quaternion.grassman_product,
      Quaternion.sub_def, Quaternion.sub, Quaternion.new] <;> ring

/-- C1: `grassman_product(a, b)` and `a * b` both return the quaternion
given by the Hamilton product rule (real part from `i`, imaginary parts
from `j k l`), and in particular `a * b = grassman_product(a, b)` for
all `a`, `b`. -/
theorem C1_grassman_product_mul_hamilton_rule (a b : Quaternion) :
    Quaternion.grassman_product a b =
      Quaternion.new
        (a.i * b.i - a.j * b.j - a.k * b.k - a.l * b.l)
        (a.i * b.j + a.j * b.i + a.k * b.l - a.l * b.k)
        (a.i * b.k - a.j * b.l + a.k * b.i + a.l * b.j)
        (a.i * b.l + a.j * b.k - a.k * b.j + a.l * b.i) ∧
    a * b = Quaternion.grassman_product a b :=
  ⟨rfl, rfl⟩

/-- C2: every component of `cross_product(a, b)` is half the
corresponding component of the commutator
`grassman_product(a, b) - grassman_product(b, a)`. -/
theorem C2_cross_product_half_commutator (a b : Quaternion) :
    (Quaternion.cross_product a b).i =
      0.5 * (Quaternion.grassman_product a b -
        Quaternion.grassman_product b a).i ∧
    (Quaternion.cross_product a b).j =
      0.5 * (Quaternion.grassman_product a b -
        Quaternion.grassman_product b a).j ∧
    (Quaternion.cross_product a b).k =
      0.5 * (Quaternion.grassman_product a b -
        Quaternion.grassman_product b a).k ∧
    (Quaternion.cross_product a b).l =
      0.5 * (Quaternion.grassman_product a b -
        Quaternion.grassman_product b a).l := by
  refine ⟨?_, ?_, ?_, ?_⟩ <;>
    simp only [Quaternion.cross_product, Quaternion.grassman_product,
      Quaternion.sub_def, Quaternion.sub, Quaternion.new] <;> ring

/-- C3: `exchangeable(a, b)` returns `true` exactly when all four
components of `cross_product(a, b)` are zero. -/
theorem C3_exchangeable_iff_cross_product_zero (a b : Quaternion) :
    Quaternion.exchangeable a b = true ↔
      ((Quaternion.cross_product a b).i = 0 ∧
       (Quaternion.cross_product a b).j = 0 ∧
       (Quaternion.cross_product a b).k = 0 ∧
       (Quaternion.cross_product a b).l = 0) := by
  rw [Quaternion.exchangeable_iff, Quaternion.eq_iff]
  simp [Quaternion.new]

/-- C4: `divide_elementwise(q, s)` divides every component by `|s|`;
hence its value at `s` and at `-s` coincide, and a negative divisor does
not flip component signs. -/
theorem C4_divide_elementwise_uses_abs (q : Quaternion) (s : ℝ) :
    Quaternion.divide_elementwise q s =
      Quaternion.new (q.i / |s|) (q.j / |s|) (q.k / |s|) (q.l / |s|) ∧
    Quaternion.divide_elementwise q s =
      Quaternion.divide_elementwise q (-s) := by
  refine ⟨rfl, ?_⟩
  simp [Quaternion.divide_elementwise, abs_neg]

/-- C5: the scalar-multiply overload (modelled from the spec as
`mulScalar`) scales every component by `s`, and `q * 1 = q`. -/
theorem C5_scalar_mul_componentwise (q : Quaternion) (s : ℝ) :
    Quaternion.mulScalar q s =
      Quaternion.new (q.i * s) (q.j * s) (q.k * s) (q.l * s) ∧
    Quaternion.mulScalar q 1 = q := by
  refine ⟨rfl, ?_⟩
  cases q
  simp [Quaternion.mulScalar, Quaternion.new]

/-- C6: for every quaternion that is not the zero quaternion, the
magnitude of its normalization is exactly 1 (the real-number
idealization of the floating-point tolerance statement). -/
theorem C6_abs_unit_eq_one (q : Quaternion)
    (h : q ≠ Quaternion.new 0 0 0 0) :
    (Quaternion.unit q).abs = 1 := by
  have hS : 0 < q.i ^ 2 + q.j ^ 2 + q.k ^ 2 + q.l ^ 2 := by
    by_contra hc
    push_neg at hc
    have hi : q.i = 0 := sq_eq_zero_iff.mp (le_antisymm
      (by nlinarith [sq_nonneg q.j, sq_nonneg q.k, sq_nonneg q.l]) (sq_nonneg q.i))
    have hj : q.j = 0 := sq_eq_zero_iff.mp (le_antisymm
      (by nlinarith [sq_nonneg q.i, sq_nonneg q.k, sq_nonneg q.l]) (sq_nonneg q.j))
    have hk : q.k = 0 := sq_eq_zero_iff.mp (le_antisymm
      (by nlinarith [sq_nonneg q.i, sq_nonneg q.j, sq_nonneg q.l]) (sq_nonneg q.k))
    have hl : q.l = 0 := sq_eq_zero_iff.mp (le_antisymm
      (by nlinarith [sq_nonneg q.i, sq_nonneg q.j, sq_nonneg q.k]) (sq_nonneg q.l))
    exact h ((Quaternion.eq_iff q (Quaternion.new 0 0 0 0)).mpr
      (by simp [Quaternion.new, hi, hj, hk, hl]))
  have ha : 0 < Quaternion.abs q := Real.sqrt_pos.mpr hS
  have habs : |Quaternion.abs q| = Quaternion.abs q := abs_of_pos ha
  have e1 : (Quaternion.unit q).abs =
      Real.sqrt ((q.i / |Quaternion.abs q|) ^ 2 + (q.j / |Quaternion.abs q|) ^ 2 +
        (q.k / |Quaternion.abs q|) ^ 2 + (q.l / |Quaternion.abs q|) ^ 2) := rfl
  have h2 : Quaternion.abs q ^ 2 = q.i ^ 2 + q.j ^ 2 + q.k ^ 2 + q.l ^ 2 :=
    Real.sq_sqrt hS.le
  rw [e1, habs, div_pow, div_pow, div_pow, div_pow, div_add_div_same,
    div_add_div_same, div_add_div_same, h2, div_self hS.ne', Real.sqrt_one]

/-- Witness for C6 at the spec's own example `(14, -19, 9, -3)`. -/
theorem C6_abs_unit_eq_one_witness :
    Quaternion.new 14 (-19) 9 (-3) ≠ Quaternion.new 0 0 0 0 ∧
    (Quaternion.unit (Quaternion.new 14 (-19) 9 (-3))).abs = 1 :=
  ⟨by simp [Quaternion.new, Quaternion.eq_iff],
   C6_abs_unit_eq_one (Quaternion.new 14 (-19) 9 (-3))
     (by simp [Quaternion.new, Quaternion.eq_iff])⟩

/-- C7: the Hamilton product distributes over componentwise addition. -/
theorem C7_grassman_product_distributes_over_add (a b c : Quaternion) :
    Quaternion.grassman_product a (b + c) =
      Quaternion.grassman_product a b + Quaternion.grassman_product a c := by
  rw [Quaternion.eq_iff]
  refine ⟨?_, ?_, ?_, ?_⟩ <;>
    simp only [Quaternion.grassman_product, Quaternion.add_def,
      Quaternion.add] <;> ring

/-- C8: `exchangeable(q, q)` is `true` for every quaternion: each
quaternion commutes with itself. -/
theorem C8_exchangeable_self (q : Quaternion) :
    Quaternion.exchangeable q q = true := by
  rw [Quaternion.exchangeable_iff, Quaternion.eq_iff]
  refine ⟨?_, ?_, ?_, ?_⟩ <;>
    simp only [Quaternion.cross_product, Quaternion.grassman_product,
      Quaternion.sub_def, Quaternion.sub, Quaternion.new] <;> ring

/-- C9: `exchangeable` is symmetric: swapping the operands only negates
the commutator, so the returned boolean is unchanged. -/
theorem C9_exchangeable_symm (a b : Quaternion) :
    Quaternion.exchangeable a b = Quaternion.exchangeable b a := by
  rw [Bool.eq_iff_iff, Quaternion.exchangeable_iff, Quaternion.exchangeable_iff,
    Quaternion.cross_product_swap a b]
  simp [Quaternion.eq_iff, Quaternion.new, neg_eq_zero]

/-- C10: multiplying a quaternion by its conjugate yields the squared
magnitude in the real component and zero in all imaginary components. -/
theorem C10_grassman_product_conj (q : Quaternion) :
    Quaternion.grassman_product q (Quaternion.conj q) =
      Quaternion.new (q.i ^ 2 + q.j ^ 2 + q.k ^ 2 + q.l ^ 2) 0 0 0 := by
  rw [Quaternion.eq_iff]
  refine ⟨?_, ?_, ?_, ?_⟩ <;>
    simp only [Quaternion.grassman_product, Quaternion.conj,
      Quaternion.new] <;> ring

end RustQuat
